import Mathlib

/-!
Verification of the core of the sst-phold PHOLD benchmark.

This file gives a shallow embedding of the parts of the repository that the
verified properties talk about:

* `BinaryTree` — the pure index arithmetic of `src/binary-tree.h`
  (memoized `capacity`, `parent`, `children`);
* the PHOLD LP behaviour of `src/Phold.cc` (`SendEvent`, `handleEvent`,
  `setup`, and the `complete()` reduction over the binary tree, with its
  helpers `getChildCounts` and `sendToChild`);
* a model of the configuration validation performed by the front end.

Machine integers (`SST::SimTime_t`, `std::size_t`) are modelled as `ℕ`; in
every function embedded here the C++ arithmetic stays far below `2^64`
wherever the theorems use it, and where an overflow or an out-of-bounds
access actually matters (the `capacity` memo table) the bound is made
explicit in the model (`Option`).  `double` values produced by the RNG layer
are modelled as `ℚ`.  Fallible or unbounded-loop code returns `Option`.
-/

namespace PholdSpec

/-! ## Binary tree index arithmetic (`src/binary-tree.h`) -/

namespace BinaryTree

/-- Embeds `BinaryTree::max_depth`: the number of bits in `std::size_t`
(`std::numeric_limits<std::size_t>::digits` = 64 on the 64-bit platforms the
benchmark targets). -/
def max_depth : ℕ := 64

/-- Embeds the memo-filling loop in `BinaryTree::capacity`:
starting after `cap[0] = 0` with running power `s`, each step appends
`cap[d] = cap[d - 1] + s` and doubles `s` (`s <<= 1`).  `steps` is the
number of remaining loop iterations (`d = 1 .. max_depth`). -/
def capMemoGo : ℕ → ℕ → ℕ → List ℕ
  | 0, _, _ => []
  | steps + 1, prev, s => (prev + s) :: capMemoGo steps (prev + s) (2 * s)

/-- Embeds the memo table `cap_memo` of `BinaryTree::capacity`: a
`std::array<std::size_t, max_depth + 1>` (65 entries, indices `0 .. 64`)
with `cap[0] = 0` and `cap[d] = cap[d-1] + 2^(d-1)`. -/
def cap_memo : List ℕ := 0 :: capMemoGo max_depth 0 1

/-- Embeds `BinaryTree::capacity(depth)`, which returns
`cap_memo[depth + 1]`.  The C++ `std::array::operator[]` is unchecked; the
embedding surfaces the bound as an `Option`: `none` exactly when the C++
access would read past the end of the 65-entry table. -/
def capacity? (d : ℕ) : Option ℕ := cap_memo[d + 1]?

/-- Embeds `BinaryTree::parent(childIdx) = (childIdx - 1) / 2` (truncating
unsigned division).  For `childIdx ≥ 1` the `ℕ` value agrees with the
`std::size_t` value; at `childIdx = 0` the C++ expression wraps around
(the header documents `parent` as undefined there). -/
def parent (childIdx : ℕ) : ℕ := (childIdx - 1) / 2

/-- Embeds `BinaryTree::children(parentIdx) = {2 * parentIdx + 1, child1 + 1}`. -/
def children (parentIdx : ℕ) : ℕ × ℕ :=
  let child1 := 2 * parentIdx + 1
  (child1, child1 + 1)

theorem capMemoGo_length (steps : ℕ) : ∀ prev s, (capMemoGo steps prev s).length = steps := by
  induction steps with
  | zero => intro prev s; rfl
  | succ n ih => intro prev s; simp [capMemoGo, ih]

theorem capMemoGo_get? (steps : ℕ) :
    ∀ prev s j, j < steps →
      (capMemoGo steps prev s)[j]? = some (prev + (2 ^ (j + 1) - 1) * s) := by
  induction steps with
  | zero => intro prev s j hj; omega
  | succ n ih =>
    intro prev s j hj
    cases j with
    | zero => simp [capMemoGo]
    | succ j =>
      have hj : j < n := by omega
      have hrec := ih (prev + s) (2 * s) j hj
      have hpow : 1 ≤ 2 ^ (j + 1) := Nat.one_le_two_pow
      have key : (2 ^ (j + 1 + 1) - 1) * s = s + (2 ^ (j + 1) - 1) * (2 * s) := by
        have h2 : 2 ^ (j + 1 + 1) = 2 * 2 ^ (j + 1) := by ring
        obtain ⟨k, hk⟩ := Nat.exists_eq_add_of_le hpow
        rw [h2, hk]
        have e1 : 2 * (1 + k) - 1 = 1 + 2 * k := by omega
        have e2 : 1 + k - 1 = k := by omega
        rw [e1, e2]; ring
      simp only [capMemoGo, List.getElem?_cons_succ, hrec]
      congr 1
      omega

theorem cap_memo_length : cap_memo.length = max_depth + 1 := by
  simp [cap_memo, capMemoGo_length, max_depth]

theorem cap_memo_get? (d : ℕ) (hd : 0 < d) (hd64 : d ≤ max_depth) :
    cap_memo[d]? = some (2 ^ d - 1) := by
  cases d with
  | zero => omega
  | succ j =>
    have hj : j < max_depth := by omega
    have h := capMemoGo_get? max_depth 0 1 j hj
    simp only [Nat.zero_add, Nat.mul_one] at h
    simp [cap_memo, List.getElem?_cons_succ, h]

end BinaryTree

/-! ## Claim C8: domain of `BinaryTree::capacity` -/

/--
C8 (corrected, counterexample): the claim states that `capacity(d)` is
defined — with its memo access in bounds — for every `d ∈ [0, W]` with
`W = 64`.  At `d = W` the lookup index is `d + 1 = 65`, one past the end of
the `(W + 1)`-entry table, so the access is out of bounds (the `Option`
model returns `none`).
-/
theorem capacity_oob_at_max_depth :
    BinaryTree.cap_memo.length = BinaryTree.max_depth + 1 ∧
      BinaryTree.capacity? BinaryTree.max_depth = none := by
  constructor
  · exact BinaryTree.cap_memo_length
  · decide

/--
C8 (amended): for every depth `d < W` (`W = 64`, the bit width of
`std::size_t`), `BinaryTree::capacity(d)` keeps its memoization-table access
within the bounds of the `(W + 1)`-entry table and returns `2^(d+1) - 1`.
(At `d = W` the access is out of bounds; see the counterexample.)
-/
theorem capacity_eq (d : ℕ) (hd : d < BinaryTree.max_depth) :
    BinaryTree.capacity? d = some (2 ^ (d + 1) - 1) := by
  unfold BinaryTree.capacity?
  exact BinaryTree.cap_memo_get? (d + 1) (by omega) (by omega)

/-- Witness for C8 (amended) at `d = 10`. -/
theorem capacity_eq_witness :
    BinaryTree.capacity? 10 = some 2047 := by
  have h := capacity_eq 10 (by decide)
  simpa using h

/-! ## Claim C9: `children` and `parent` round trip -/

/--
C9: for every index `i` with `0 < i < capacity(W) = 2^(W+1) - 1`, the pair
`children(parent(i))` contains `i`, where `parent(i) = (i - 1) / 2` with
truncating integer division and `children(p) = (2p + 1, 2p + 2)`.
-/
theorem children_parent_contains (i : ℕ) (h0 : 0 < i)
    (_hcap : i < 2 ^ (BinaryTree.max_depth + 1) - 1) :
    (BinaryTree.children (BinaryTree.parent i)).1 = i ∨
      (BinaryTree.children (BinaryTree.parent i)).2 = i := by
  simp only [BinaryTree.children, BinaryTree.parent]
  omega

/-- Witness for C9 at `i = 5`: `parent(5) = 2` and `children(2) = (5, 6)`. -/
theorem children_parent_contains_witness :
    (BinaryTree.children (BinaryTree.parent 5)).1 = 5 ∨
      (BinaryTree.children (BinaryTree.parent 5)).2 = 5 :=
  children_parent_contains 5 (by decide) (by norm_num [BinaryTree.max_depth])

/-! ## The PHOLD LP (`src/Phold.cc`)

The LP behaviour is embedded over an abstract view of the RNG layer.  The
LP owns a single underlying RNG stream (`m_rng`, seeded with `1 + id`);
`m_remRng` aliases it, and the two derived distributions
(`SSTUniformDistribution(m_number)` and `SSTExponentialDistribution`) draw
from the same stream, one underlying draw per distribution call.  The
stream is modelled as `s : ℕ → ℚ` (the successive raw uniform values in
`[0, 1)`) together with a position `k`; the two derived distributions are
modelled as functions of the raw value they consume:

* `NodeDist.draw : ℚ → ℕ` for `m_nodeRng->getNextDouble()` cast to
  `SST::ComponentId_t`, with the RNG-layer contract (spec §4.2, uniform
  integer on `[0, N)`) recorded as the field `draw_lt`;
* `delayOf : ℚ → ℕ` for `m_delayRng->getNextDouble()` cast to
  `SST::SimTime_t`.

Virtual times are in units of `TIMEBASE` (1 µs), as in the component.
-/

/-- Embeds the subset of the static configuration of `Phold` the claims
use: `m_remote`, `m_minimum`, `m_stop`, `m_number`, `m_events`, and
`TIMEFACTOR` (the seconds-per-timebase-unit conversion used when
histogramming delays). -/
structure Config where
  remote : ℚ
  minimum : ℕ
  stop : ℕ
  number : ℕ
  events : ℕ
  timefactor : ℚ
  deriving Repr, DecidableEq

/-- Interpretation of `SST::RNG::SSTUniformDistribution(m_number, m_rng)`:
the destination id produced from one raw uniform draw, with the RNG-layer
contract that the result lies in `[0, number)`. -/
structure NodeDist (number : ℕ) where
  draw : ℚ → ℕ
  draw_lt : ∀ u, draw u < number

/-- Embeds `Phold::PholdEvent` (src/PholdEvent.h): the event carries the
virtual send time (the optional payload buffer carries no information). -/
structure PholdEvent where
  sendTime : ℕ
  deriving Repr, DecidableEq

/-- Mutable per-LP (instance) state the claims observe: the two accumulator
statistics `m_sendCount` and `m_recvCount`, the recorded `m_delays`
histogram samples (in seconds), and whether the LP has called
`primaryComponentOKToEndSim()` (released its do-not-end token).

The debug-build flag `m_initLive` is deliberately NOT part of this
structure: in the source it is a class static (`Phold.h`, `Phold.cc`),
shared by every LP of a process, so the embedding threads its value
separately through the calls (the `live` arguments and the `liveAfter`
result fields below). -/
structure LPState where
  sendCount : ℕ
  recvCount : ℕ
  delays : List ℚ
  okToEnd : Bool
  deriving Repr, DecidableEq

/-- Everything one call to `Phold::SendEvent` produces: the chosen
destination, whether the self link was chosen (the local/remote flag
`local` in the source), the raw exponential draw `delay`, `delayTotal`,
the scheduled arrival time `nextEventTime`, the delay argument passed to
`SST::Link::send`, the constructed `PholdEvent`, the RNG stream position
after the call, the updated LP instance state, and the value of the
process-shared static `m_initLive` after the call. -/
structure SendOutcome where
  dest : ℕ
  localDest : Bool
  delayDrawn : ℕ
  delayTotal : ℕ
  arrival : ℕ
  linkDelay : ℕ
  event : PholdEvent
  nextIdx : ℕ
  state : LPState
  liveAfter : Bool
  deriving Repr, DecidableEq

/-- Embeds the destination rejection loop of `Phold::SendEvent`:
`do { nextId = m_nodeRng->getNextDouble(); } while (nextId == getId())`.
Consumes one draw per iteration starting at position `k`; returns the
accepted destination and the next unconsumed position.  The C++ loop is
unbounded; `fuel` bounds the embedding, `none` meaning the loop did not
accept within `fuel` draws. -/
def pickRemote (id : ℕ) (draw : ℚ → ℕ) (s : ℕ → ℚ) : ℕ → ℕ → Option (ℕ × ℕ)
  | 0, _ => none
  | fuel + 1, k =>
    let nextId := draw (s k)
    if nextId = id then pickRemote id draw s fuel (k + 1) else some (nextId, k + 1)

/-- Embeds the straight-line tail of `Phold::SendEvent` after the
destination has been chosen: the exponential delay draw (one draw, at
position `k2`), `delayTotal = delay + m_minimum`,
`nextEventTime = delayTotal + now`, the self-link delay fix-up
(`delay = delayTotal` when `local`), the event construction
`new PholdEvent(getCurrentSimTime())`, and the `nextEventTime < m_stop`
gate on `m_sendCount`, the `m_delays` histogram (sample
`delayTotal * TIMEFACTOR`, i.e. in seconds) and the debug-build flag
`m_initLive` (`live` is the value of that process-shared static when the
call starts; `if (mustLive && !m_initLive) m_initLive = true` runs inside
the gated branch). -/
def sendTail (cfg : Config) (delayOf : ℚ → ℕ) (s : ℕ → ℚ) (localDest : Bool)
    (dest k2 now : ℕ) (mustLive live : Bool) (st : LPState) : SendOutcome :=
  let delay := delayOf (s k2)
  let delayTotal := delay + cfg.minimum
  let nextEventTime := delayTotal + now
  let linkDelay := if localDest then delayTotal else delay
  let st2 :=
    if nextEventTime < cfg.stop then
      { st with
        sendCount := st.sendCount + 1
        delays := st.delays ++ [(delayTotal : ℚ) * cfg.timefactor] }
    else st
  let live2 := if nextEventTime < cfg.stop then live || mustLive else live
  { dest := dest
    localDest := localDest
    delayDrawn := delay
    delayTotal := delayTotal
    arrival := nextEventTime
    linkDelay := linkDelay
    event := { sendTime := now }
    nextIdx := k2 + 1
    state := st2
    liveAfter := live2 }

/-- Embeds `Phold::SendEvent(mustLive)` for LP `id` at virtual time `now`,
with the RNG stream at position `k`.  First the remote-or-not uniform coin
`rem` is drawn; if `rem < m_remote` the destination comes from the
rejection loop (`pickRemote`), otherwise the destination stays
`getId()` and `local` is set; then the delay is drawn and the event is
built and sent (`sendTail`). -/
def SendEvent (cfg : Config) (id : ℕ) (nd : NodeDist cfg.number) (delayOf : ℚ → ℕ)
    (s : ℕ → ℚ) (fuel : ℕ) (mustLive live : Bool) (now k : ℕ) (st : LPState) :
    Option SendOutcome :=
  let rem := s k
  if rem < cfg.remote then
    match pickRemote id nd.draw s fuel (k + 1) with
    | none => none
    | some (dest, k2) => some (sendTail cfg delayOf s false dest k2 now mustLive live st)
  else
    some (sendTail cfg delayOf s true id (k + 1) now mustLive live st)

/-- Everything one call to `Phold::handleEvent` produces: the send time
extracted from the event before it is freed, the follow-on events emitted
(via `SendEvent`), the updated LP state, the RNG stream position after
the call, and the value of the shared static `m_initLive` after the call
(threaded through the inner `SendEvent`). -/
structure HandleOutcome where
  sendTime : ℕ
  emitted : List SendOutcome
  state : LPState
  nextIdx : ℕ
  liveAfter : Bool
  deriving Repr, DecidableEq

/-- Embeds `Phold::handleEvent(ev, from)` at virtual time `now`: the send
time is extracted and the event deleted; if `now < m_stop` the receive is
recorded; then, again under `now < m_stop`, `SendEvent()` is called once,
otherwise `primaryComponentOKToEndSim()` releases the do-not-end token. -/
def handleEvent (cfg : Config) (id : ℕ) (nd : NodeDist cfg.number) (delayOf : ℚ → ℕ)
    (s : ℕ → ℚ) (fuel : ℕ) (live : Bool) (now k : ℕ) (ev : PholdEvent) (st : LPState) :
    Option HandleOutcome :=
  let sendTime := ev.sendTime
  let st1 := if now < cfg.stop then { st with recvCount := st.recvCount + 1 } else st
  if now < cfg.stop then
    match SendEvent cfg id nd delayOf s fuel false live now k st1 with
    | none => none
    | some o =>
      some { sendTime := sendTime, emitted := [o], state := o.state, nextIdx := o.nextIdx,
             liveAfter := o.liveAfter }
  else
    some { sendTime := sendTime, emitted := [],
           state := { st1 with okToEnd := true }, nextIdx := k, liveAfter := live }

/-- Embeds the initial-event loop of `Phold::setup`:
`for (i = 0; i < m_events; ++i) SendEvent(true)` (debug build passes
`mustLive = true`), threading the RNG position, the shared `m_initLive`
static and the LP state, and collecting the emitted events. -/
def setupLoop (cfg : Config) (id : ℕ) (nd : NodeDist cfg.number) (delayOf : ℚ → ℕ)
    (s : ℕ → ℚ) (fuel now : ℕ) :
    ℕ → ℕ → Bool → LPState → List SendOutcome →
      Option (LPState × Bool × ℕ × List SendOutcome)
  | 0, k, live, st, acc => some (st, live, k, acc)
  | todo + 1, k, live, st, acc =>
    match SendEvent cfg id nd delayOf s fuel true live now k st with
    | none => none
    | some o =>
      setupLoop cfg id nd delayOf s fuel now todo o.nextIdx o.liveAfter o.state (acc ++ [o])

/-- Embeds the debug-build guarantee loop of `Phold::setup`:
`while (!m_initLive) { ++extras; SendEvent(true); }`.  The loop tests the
process-shared static, so it does not run at all when another LP of the
process has already recorded a live event.  The C++ loop is unbounded;
`extraFuel` bounds the embedding. -/
def setupExtras (cfg : Config) (id : ℕ) (nd : NodeDist cfg.number) (delayOf : ℚ → ℕ)
    (s : ℕ → ℚ) (fuel now : ℕ) :
    ℕ → ℕ → Bool → LPState → List SendOutcome →
      Option (LPState × Bool × ℕ × List SendOutcome)
  | extraFuel, k, live, st, acc =>
    if live then some (st, live, k, acc)
    else
      match extraFuel with
      | 0 => none
      | extraFuel + 1 =>
        match SendEvent cfg id nd delayOf s fuel true live now k st with
        | none => none
        | some o =>
          setupExtras cfg id nd delayOf s fuel now extraFuel o.nextIdx o.liveAfter o.state
            (acc ++ [o])

/-- Embeds `Phold::setup()` for one LP (debug build, which carries the
live-event guarantee): emit `m_events` initial events with
`SendEvent(true)`, then keep calling `SendEvent(true)` until `m_initLive`
is set.  `live` is the value of the process-shared static `m_initLive`
when this LP's `setup()` starts: `false` only if no LP of the process has
recorded a live event since the statics were cleared. -/
def setup (cfg : Config) (id : ℕ) (nd : NodeDist cfg.number) (delayOf : ℚ → ℕ)
    (s : ℕ → ℚ) (fuel extraFuel : ℕ) (live : Bool) (now k : ℕ) (st : LPState) :
    Option (LPState × Bool × ℕ × List SendOutcome) :=
  match setupLoop cfg id nd delayOf s fuel now cfg.events k live st [] with
  | none => none
  | some (st1, live1, k1, acc) =>
    setupExtras cfg id nd delayOf s fuel now extraFuel k1 live1 st1 acc

/-! ### Supporting lemmas about `pickRemote`, `sendTail`, `SendEvent` -/

theorem pickRemote_spec (id : ℕ) (draw : ℚ → ℕ) (s : ℕ → ℚ) :
    ∀ fuel k d k2, pickRemote id draw s fuel k = some (d, k2) →
      ∃ j, k ≤ j ∧ k2 = j + 1 ∧ draw (s j) = d ∧ d ≠ id ∧
        ∀ m, k ≤ m → m < j → draw (s m) = id := by
  intro fuel
  induction fuel with
  | zero => intro k d k2 h; simp [pickRemote] at h
  | succ n ih =>
    intro k d k2 h
    simp only [pickRemote] at h
    by_cases hd : draw (s k) = id
    · rw [if_pos hd] at h
      obtain ⟨j, hkj, hk2, hdrw, hne, hall⟩ := ih (k + 1) d k2 h
      refine ⟨j, by omega, hk2, hdrw, hne, ?_⟩
      intro m hm1 hm2
      rcases Nat.eq_or_lt_of_le hm1 with hm | hm
      · rw [← hm]; exact hd
      · exact hall m hm hm2
    · rw [if_neg hd] at h
      obtain ⟨h1, h2⟩ := Prod.mk.injEq .. ▸ Option.some.injEq .. ▸ h
      exact ⟨k, le_refl k, h2.symm, h1, h1 ▸ hd, fun m hm1 hm2 => by omega⟩

theorem sendTail_fields (cfg : Config) (delayOf : ℚ → ℕ) (s : ℕ → ℚ) (localDest : Bool)
    (dest k2 now : ℕ) (mustLive live : Bool) (st : LPState) :
    (sendTail cfg delayOf s localDest dest k2 now mustLive live st).dest = dest ∧
    (sendTail cfg delayOf s localDest dest k2 now mustLive live st).localDest = localDest ∧
    (sendTail cfg delayOf s localDest dest k2 now mustLive live st).delayDrawn = delayOf (s k2) ∧
    (sendTail cfg delayOf s localDest dest k2 now mustLive live st).delayTotal
      = delayOf (s k2) + cfg.minimum ∧
    (sendTail cfg delayOf s localDest dest k2 now mustLive live st).arrival
      = delayOf (s k2) + cfg.minimum + now ∧
    (sendTail cfg delayOf s localDest dest k2 now mustLive live st).linkDelay
      = (if localDest then delayOf (s k2) + cfg.minimum else delayOf (s k2)) ∧
    (sendTail cfg delayOf s localDest dest k2 now mustLive live st).event.sendTime = now ∧
    (sendTail cfg delayOf s localDest dest k2 now mustLive live st).nextIdx = k2 + 1 := by
  simp [sendTail]

theorem sendTail_state (cfg : Config) (delayOf : ℚ → ℕ) (s : ℕ → ℚ) (localDest : Bool)
    (dest k2 now : ℕ) (mustLive live : Bool) (st : LPState) :
    (sendTail cfg delayOf s localDest dest k2 now mustLive live st).state
      = (if (sendTail cfg delayOf s localDest dest k2 now mustLive live st).arrival < cfg.stop then
          { st with
            sendCount := st.sendCount + 1
            delays := st.delays ++
              [((sendTail cfg delayOf s localDest dest k2 now mustLive live st).delayTotal : ℚ)
                * cfg.timefactor] }
        else st) := by
  simp only [sendTail]

/-- Inversion principle for `SendEvent`: a successful call is a `sendTail`
application, remote or self according to the coin. -/
theorem SendEvent_inv (cfg : Config) (id : ℕ) (nd : NodeDist cfg.number) (delayOf : ℚ → ℕ)
    (s : ℕ → ℚ) (fuel : ℕ) (mustLive live : Bool) (now k : ℕ) (st : LPState) (o : SendOutcome)
    (h : SendEvent cfg id nd delayOf s fuel mustLive live now k st = some o) :
    (s k < cfg.remote ∧ ∃ d k2, pickRemote id nd.draw s fuel (k + 1) = some (d, k2) ∧
        o = sendTail cfg delayOf s false d k2 now mustLive live st) ∨
    (cfg.remote ≤ s k ∧ o = sendTail cfg delayOf s true id (k + 1) now mustLive live st) := by
  unfold SendEvent at h
  by_cases hrem : s k < cfg.remote
  · left
    rw [if_pos hrem] at h
    rcases hp : pickRemote id nd.draw s fuel (k + 1) with _ | ⟨d, k2⟩
    · rw [hp] at h; simp at h
    · rw [hp] at h
      simp only [Option.some.injEq] at h
      exact ⟨hrem, d, k2, rfl, h.symm⟩
  · right
    rw [if_neg hrem] at h
    simp only [Option.some.injEq] at h
    exact ⟨le_of_not_lt hrem, h.symm⟩

theorem SendEvent_dest_ne (cfg : Config) (id : ℕ) (nd : NodeDist cfg.number)
    (delayOf : ℚ → ℕ) (s : ℕ → ℚ) (fuel : ℕ) (mustLive live : Bool) (now k : ℕ) (st : LPState)
    (o : SendOutcome)
    (h : SendEvent cfg id nd delayOf s fuel mustLive live now k st = some o) :
    (o.localDest = false → o.dest ≠ id) ∧ (o.localDest = true → o.dest = id) := by
  rcases SendEvent_inv cfg id nd delayOf s fuel mustLive live now k st o h with
    ⟨_, d, k2, hp, ho⟩ | ⟨_, ho⟩
  · obtain ⟨j, _, _, _, hne, _⟩ := pickRemote_spec id nd.draw s fuel (k + 1) d k2 hp
    subst ho
    simp [sendTail, hne]
  · subst ho
    simp [sendTail]

theorem SendEvent_state_recv_okToEnd (cfg : Config) (id : ℕ) (nd : NodeDist cfg.number)
    (delayOf : ℚ → ℕ) (s : ℕ → ℚ) (fuel : ℕ) (mustLive live : Bool) (now k : ℕ) (st : LPState)
    (o : SendOutcome)
    (h : SendEvent cfg id nd delayOf s fuel mustLive live now k st = some o) :
    o.state.recvCount = st.recvCount ∧ o.state.okToEnd = st.okToEnd := by
  rcases SendEvent_inv cfg id nd delayOf s fuel mustLive live now k st o h with
    ⟨_, _, _, _, ho⟩ | ⟨_, ho⟩ <;>
    · subst ho
      simp only [sendTail]
      split <;> simp

/-! ## Claim C2: event timing and link submission in `SendEvent` -/

/--
C2: for every successful call to `SendEvent` at virtual time `now`, the
total delay is `delay_total = delay + minimum` and the intended arrival
time is `now + delay_total`; if the destination is another LP the link is
invoked with `send(delay, event)` (the link latency supplies `minimum`),
while if the destination is the sender itself the link is invoked with
`send(delay_total, event)`; and the `PholdEvent` constructed carries send
time exactly `now`.
-/
theorem sendEvent_timing (cfg : Config) (id : ℕ) (nd : NodeDist cfg.number)
    (delayOf : ℚ → ℕ) (s : ℕ → ℚ) (fuel : ℕ) (mustLive live : Bool) (now k : ℕ) (st : LPState)
    (o : SendOutcome)
    (h : SendEvent cfg id nd delayOf s fuel mustLive live now k st = some o) :
    o.delayTotal = o.delayDrawn + cfg.minimum ∧
    o.arrival = now + o.delayTotal ∧
    (o.dest ≠ id → o.linkDelay = o.delayDrawn) ∧
    (o.dest = id → o.linkDelay = o.delayTotal) ∧
    o.event.sendTime = now := by
  have hdest := SendEvent_dest_ne cfg id nd delayOf s fuel mustLive live now k st o h
  rcases SendEvent_inv cfg id nd delayOf s fuel mustLive live now k st o h with
    ⟨_, d, k2, hp, ho⟩ | ⟨_, ho⟩
  · have hne : o.dest ≠ id := hdest.1 (by subst ho; simp [sendTail])
    subst ho
    refine ⟨by simp [sendTail], by simp [sendTail]; ring, ?_, ?_, by simp [sendTail]⟩
    · intro _; simp [sendTail]
    · intro hid; exact absurd hid hne
  · subst ho
    refine ⟨by simp [sendTail], by simp [sendTail]; ring, ?_, ?_, by simp [sendTail]⟩
    · intro hne; exact absurd (by simp [sendTail]) hne
    · intro _; simp [sendTail]

/-! ## Claim C3: RNG draw order in `SendEvent` -/

/--
C3: every successful call to `SendEvent` consumes draws from the LP's
single shared RNG stream in this order: first the remote-or-not uniform
coin `rem` (at position `k`); then, only when `rem < remote`, destination
draws repeated until the drawn id differs from the sender's (so the chosen
destination lies in `[0, N)` and differs from the sender); when
`rem ≥ remote` the destination is the sender itself and no destination
draw is made; and finally the exponential delay draw, after which the
stream position has advanced past exactly the consumed draws.
-/
theorem sendEvent_draw_order (cfg : Config) (id : ℕ) (nd : NodeDist cfg.number)
    (delayOf : ℚ → ℕ) (s : ℕ → ℚ) (fuel : ℕ) (mustLive live : Bool) (now k : ℕ) (st : LPState)
    (o : SendOutcome)
    (h : SendEvent cfg id nd delayOf s fuel mustLive live now k st = some o) :
    (cfg.remote ≤ s k →
       o.dest = id ∧ o.localDest = true ∧
       o.delayDrawn = delayOf (s (k + 1)) ∧ o.nextIdx = k + 2) ∧
    (s k < cfg.remote →
       ∃ j, k + 1 ≤ j ∧
         (∀ m, k + 1 ≤ m → m < j → nd.draw (s m) = id) ∧
         nd.draw (s j) ≠ id ∧
         o.dest = nd.draw (s j) ∧ o.dest < cfg.number ∧ o.dest ≠ id ∧
         o.localDest = false ∧
         o.delayDrawn = delayOf (s (j + 1)) ∧ o.nextIdx = j + 2) := by
  rcases SendEvent_inv cfg id nd delayOf s fuel mustLive live now k st o h with
    ⟨hrem, d, k2, hp, ho⟩ | ⟨hrem, ho⟩
  · obtain ⟨j, hkj, hk2, hdrw, hne, hall⟩ := pickRemote_spec id nd.draw s fuel (k + 1) d k2 hp
    subst ho hk2
    constructor
    · intro hle; exact absurd hrem (not_lt.mpr hle)
    · intro _
      refine ⟨j, hkj, hall, by rw [hdrw]; exact hne, ?_, ?_, ?_, ?_, ?_, ?_⟩
      · simp [sendTail, hdrw]
      · simpa [sendTail, hdrw] using nd.draw_lt (s j)
      · simpa [sendTail] using hne
      · simp [sendTail]
      · simp [sendTail]
      · simp [sendTail]
  · subst ho
    constructor
    · intro _
      refine ⟨by simp [sendTail], by simp [sendTail], by simp [sendTail], by simp [sendTail]⟩
    · intro hlt; exact absurd hlt (not_lt.mpr hrem)

/-! ## Claim C4: stop-time gating of the statistics -/

/--
C4: for every event emitted by `SendEvent`, `send_count` is incremented and
one sample equal to `delay_total` converted to seconds
(`delayTotal * TIMEFACTOR`) is added to the delay histogram exactly when
the scheduled arrival time is strictly less than `stop`, and both stay
unchanged otherwise; for every event delivered to `handleEvent`,
`recv_count` is incremented exactly when the virtual time at delivery is
strictly less than `stop`, and stays unchanged otherwise.
-/
theorem stats_stop_gating (cfg cfg2 : Config) (id id2 : ℕ)
    (nd : NodeDist cfg.number) (nd2 : NodeDist cfg2.number)
    (delayOf delayOf2 : ℚ → ℕ) (s s2 : ℕ → ℚ) (fuel fuel2 : ℕ) (mustLive live live2 : Bool)
    (now k now2 k2 : ℕ) (st st2 : LPState) (ev : PholdEvent)
    (o : SendOutcome) (r : HandleOutcome)
    (hs : SendEvent cfg id nd delayOf s fuel mustLive live now k st = some o)
    (hh : handleEvent cfg2 id2 nd2 delayOf2 s2 fuel2 live2 now2 k2 ev st2 = some r) :
    (o.arrival < cfg.stop →
       o.state.sendCount = st.sendCount + 1 ∧
       o.state.delays = st.delays ++ [(o.delayTotal : ℚ) * cfg.timefactor]) ∧
    (cfg.stop ≤ o.arrival →
       o.state.sendCount = st.sendCount ∧ o.state.delays = st.delays) ∧
    (now2 < cfg2.stop → r.state.recvCount = st2.recvCount + 1) ∧
    (cfg2.stop ≤ now2 → r.state.recvCount = st2.recvCount) := by
  have hsend :
      (o.arrival < cfg.stop →
         o.state.sendCount = st.sendCount + 1 ∧
         o.state.delays = st.delays ++ [(o.delayTotal : ℚ) * cfg.timefactor]) ∧
      (cfg.stop ≤ o.arrival →
         o.state.sendCount = st.sendCount ∧ o.state.delays = st.delays) := by
    rcases SendEvent_inv cfg id nd delayOf s fuel mustLive live now k st o hs with
      ⟨_, d, kk, _, ho⟩ | ⟨_, ho⟩ <;>
      · subst ho
        constructor
        · intro hlt
          simp only [sendTail] at hlt ⊢
          rw [if_pos hlt]
          simp [sendTail]
        · intro hge
          simp only [sendTail] at hge ⊢
          rw [if_neg (not_lt.mpr hge)]
          exact ⟨rfl, rfl⟩
  refine ⟨hsend.1, hsend.2, ?_, ?_⟩
  · intro hlt
    unfold handleEvent at hh
    rw [if_pos hlt, if_pos hlt] at hh
    rcases he : SendEvent cfg2 id2 nd2 delayOf2 s2 fuel2 false live2 now2 k2
        { st2 with recvCount := st2.recvCount + 1 } with _ | o2
    · rw [he] at hh; simp at hh
    · rw [he] at hh
      simp only [Option.some.injEq] at hh
      have hrecv := (SendEvent_state_recv_okToEnd cfg2 id2 nd2 delayOf2 s2 fuel2 false live2 now2 k2
        { st2 with recvCount := st2.recvCount + 1 } o2 he).1
      rw [← hh]
      simpa using hrecv
  · intro hge
    unfold handleEvent at hh
    rw [if_neg (not_lt.mpr hge), if_neg (not_lt.mpr hge)] at hh
    simp only [Option.some.injEq] at hh
    rw [← hh]

/-! ## Claim C5: handler behaviour and token release -/

/--
C5: for every PHOLD event delivered to `handleEvent`, the handler extracts
the send time (the event is then freed); if the current virtual time is
strictly less than `stop` it calls `SendEvent` exactly once — emitting
exactly one follow-on event — and does not release the termination token;
otherwise it emits no new event and releases the LP's do-not-end token
(`primaryComponentOKToEndSim`), so an LP (still holding its token) releases
it exactly when its handler observes `now ≥ stop`.
-/
theorem handleEvent_spec (cfg : Config) (id : ℕ) (nd : NodeDist cfg.number)
    (delayOf : ℚ → ℕ) (s : ℕ → ℚ) (fuel : ℕ) (live : Bool) (now k : ℕ) (ev : PholdEvent) (st : LPState)
    (r : HandleOutcome)
    (h : handleEvent cfg id nd delayOf s fuel live now k ev st = some r) :
    r.sendTime = ev.sendTime ∧
    (now < cfg.stop → r.emitted.length = 1 ∧ r.state.okToEnd = st.okToEnd) ∧
    (cfg.stop ≤ now → r.emitted = [] ∧ r.state.okToEnd = true) ∧
    (st.okToEnd = false → (r.state.okToEnd = true ↔ cfg.stop ≤ now)) := by
  by_cases hlt : now < cfg.stop
  · unfold handleEvent at h
    rw [if_pos hlt, if_pos hlt] at h
    rcases he : SendEvent cfg id nd delayOf s fuel false live now k
        { st with recvCount := st.recvCount + 1 } with _ | o
    · rw [he] at h; simp at h
    · rw [he] at h
      simp only [Option.some.injEq] at h
      have hok := (SendEvent_state_recv_okToEnd cfg id nd delayOf s fuel false live now k
        { st with recvCount := st.recvCount + 1 } o he).2
      subst h
      refine ⟨rfl, fun _ => ⟨rfl, hok⟩, fun hge => absurd hlt (not_lt.mpr hge), ?_⟩
      intro hfalse
      constructor
      · intro htrue
        rw [hfalse] at hok
        exact absurd (htrue.symm.trans hok) (by simp)
      · intro hge; exact absurd hlt (not_lt.mpr hge)
  · unfold handleEvent at h
    rw [if_neg hlt, if_neg hlt] at h
    simp only [Option.some.injEq] at h
    subst h
    exact ⟨rfl, fun hl => absurd hl hlt, fun _ => ⟨rfl, rfl⟩,
      fun _ => ⟨fun _ => le_of_not_lt hlt, fun _ => rfl⟩⟩

/-! ## Claim C6: the live-initial-event guarantee of `setup` -/

theorem SendEvent_initLive (cfg : Config) (id : ℕ) (nd : NodeDist cfg.number)
    (delayOf : ℚ → ℕ) (s : ℕ → ℚ) (fuel : ℕ) (mustLive live : Bool) (now k : ℕ)
    (st : LPState) (o : SendOutcome)
    (h : SendEvent cfg id nd delayOf s fuel mustLive live now k st = some o) :
    (o.liveAfter = true ↔
      (live = true ∨ (mustLive = true ∧ o.arrival < cfg.stop))) := by
  rcases SendEvent_inv cfg id nd delayOf s fuel mustLive live now k st o h with
    ⟨_, d, kk, _, ho⟩ | ⟨_, ho⟩ <;>
    · subst ho
      simp only [sendTail]
      split
      · rename_i hlt
        simp only [Bool.or_eq_true]
        constructor
        · rintro (hl | hm)
          · exact Or.inl hl
          · exact Or.inr ⟨hm, hlt⟩
        · rintro (hl | ⟨hm, _⟩)
          · exact Or.inl hl
          · exact Or.inr hm
      · rename_i hge
        constructor
        · exact fun hl => Or.inl hl
        · rintro (hl | ⟨_, hlt⟩)
          · exact hl
          · exact absurd hlt hge

/-- Invariant threaded through `setup`: if the process-shared `m_initLive`
static is set, then some event in `acc` has arrival time strictly before
`m_stop`.  `acc` collects only the events of the LP under consideration,
so the invariant at entry fails for an LP whose `setup()` starts after
another LP of the process has set the static — which is exactly why the
per-LP conclusion of `setup_live` is conditional on the static being clear
at entry. -/
def liveInv (cfg : Config) (live : Bool) (acc : List SendOutcome) : Prop :=
  live = true → ∃ e ∈ acc, e.arrival < cfg.stop

theorem SendEvent_liveInv (cfg : Config) (id : ℕ) (nd : NodeDist cfg.number)
    (delayOf : ℚ → ℕ) (s : ℕ → ℚ) (fuel : ℕ) (mustLive live : Bool) (now k : ℕ)
    (st : LPState) (acc : List SendOutcome) (o : SendOutcome)
    (h : SendEvent cfg id nd delayOf s fuel mustLive live now k st = some o)
    (hinv : liveInv cfg live acc) : liveInv cfg o.liveAfter (acc ++ [o]) := by
  intro hlive
  rcases (SendEvent_initLive cfg id nd delayOf s fuel mustLive live now k st o h).mp hlive with
    hst | ⟨_, hlt⟩
  · obtain ⟨e, he, hlt⟩ := hinv hst
    exact ⟨e, List.mem_append_left _ he, hlt⟩
  · exact ⟨o, List.mem_append_right _ (List.mem_singleton.mpr rfl), hlt⟩

theorem setupLoop_spec (cfg : Config) (id : ℕ) (nd : NodeDist cfg.number)
    (delayOf : ℚ → ℕ) (s : ℕ → ℚ) (fuel now : ℕ) :
    ∀ todo k live st acc st1 live1 k1 acc1,
      setupLoop cfg id nd delayOf s fuel now todo k live st acc
          = some (st1, live1, k1, acc1) →
      (liveInv cfg live acc → liveInv cfg live1 acc1) ∧
        acc1.length = acc.length + todo := by
  intro todo
  induction todo with
  | zero =>
    intro k live st acc st1 live1 k1 acc1 h
    simp only [setupLoop, Option.some.injEq] at h
    simp only [Prod.mk.injEq] at h
    obtain ⟨rfl, rfl, rfl, rfl⟩ := h
    exact ⟨fun hv => hv, rfl⟩
  | succ n ih =>
    intro k live st acc st1 live1 k1 acc1 h
    simp only [setupLoop] at h
    rcases he : SendEvent cfg id nd delayOf s fuel true live now k st with _ | o
    · rw [he] at h; simp at h
    · rw [he] at h
      obtain ⟨hpres, hlen⟩ :=
        ih o.nextIdx o.liveAfter o.state (acc ++ [o]) st1 live1 k1 acc1 h
      refine ⟨fun hv =>
        hpres (SendEvent_liveInv cfg id nd delayOf s fuel true live now k st acc o he hv), ?_⟩
      simp only [List.length_append, List.length_singleton] at hlen
      omega

theorem setupExtras_spec (cfg : Config) (id : ℕ) (nd : NodeDist cfg.number)
    (delayOf : ℚ → ℕ) (s : ℕ → ℚ) (fuel now : ℕ) :
    ∀ extraFuel k live st acc st2 live2 k2 acc2,
      setupExtras cfg id nd delayOf s fuel now extraFuel k live st acc
          = some (st2, live2, k2, acc2) →
      (liveInv cfg live acc → liveInv cfg live2 acc2) ∧ live2 = true ∧
        acc.length ≤ acc2.length := by
  intro extraFuel
  induction extraFuel with
  | zero =>
    intro k live st acc st2 live2 k2 acc2 h
    simp only [setupExtras] at h
    by_cases hl : live
    · rw [if_pos hl] at h
      simp only [Option.some.injEq] at h
      simp only [Prod.mk.injEq] at h
      obtain ⟨rfl, rfl, rfl, rfl⟩ := h
      exact ⟨fun hv => hv, hl, le_refl _⟩
    · rw [if_neg hl] at h
      simp at h
  | succ n ih =>
    intro k live st acc st2 live2 k2 acc2 h
    simp only [setupExtras] at h
    by_cases hl : live
    · rw [if_pos hl] at h
      simp only [Option.some.injEq] at h
      simp only [Prod.mk.injEq] at h
      obtain ⟨rfl, rfl, rfl, rfl⟩ := h
      exact ⟨fun hv => hv, hl, le_refl _⟩
    · rw [if_neg hl] at h
      rcases he : SendEvent cfg id nd delayOf s fuel true live now k st with _ | o
      · rw [he] at h; simp at h
      · rw [he] at h
        obtain ⟨hpres, hlive, hlen⟩ :=
          ih o.nextIdx o.liveAfter o.state (acc ++ [o]) st2 live2 k2 acc2 h
        refine ⟨fun hv =>
          hpres (SendEvent_liveInv cfg id nd delayOf s fuel true live now k st acc o he hv),
          hlive, ?_⟩
        simp only [List.length_append, List.length_singleton] at hlen
        omega

/--
C6 (amended): when an LP's `setup()` returns (debug build, which carries
the live-event guarantee), the process-shared `m_initLive` static is set,
at least the configured `events` events were emitted by this LP, and — in
the case where no LP of the process had yet recorded a live event when
this `setup()` started (the static `live = false` at entry, e.g. for the
first LP of the process to run `setup()`) — at least one event emitted by
this LP has a scheduled arrival time strictly less than `stop`: if every
one of its initial draws lands at or beyond `stop`, setup continues
calling `SendEvent` (counting the extra attempts) until a live event has
been scheduled.  When another LP of the process has already recorded a
live event, the retry loop is skipped and no per-LP guarantee holds (see
the counterexample `setup_stale_live_flag`).
-/
theorem setup_live (cfg : Config) (id : ℕ) (nd : NodeDist cfg.number)
    (delayOf : ℚ → ℕ) (s : ℕ → ℚ) (fuel extraFuel : ℕ) (live : Bool) (now k : ℕ)
    (st st2 : LPState) (live2 : Bool) (k2 : ℕ) (evs : List SendOutcome)
    (h : setup cfg id nd delayOf s fuel extraFuel live now k st
        = some (st2, live2, k2, evs)) :
    live2 = true ∧
    (live = false → ∃ e ∈ evs, e.arrival < cfg.stop) ∧
    cfg.events ≤ evs.length := by
  unfold setup at h
  rcases hl : setupLoop cfg id nd delayOf s fuel now cfg.events k live st [] with
    _ | ⟨st1, live1, k1, acc⟩
  · rw [hl] at h; simp at h
  · rw [hl] at h
    obtain ⟨hpres1, hlen1⟩ :=
      setupLoop_spec cfg id nd delayOf s fuel now cfg.events k live st [] st1 live1 k1 acc hl
    obtain ⟨hpres2, hlive2, hlen2⟩ :=
      setupExtras_spec cfg id nd delayOf s fuel now extraFuel k1 live1 st1 acc st2 live2 k2
        evs h
    refine ⟨hlive2, ?_, ?_⟩
    · intro h0
      have hinv0 : liveInv cfg live [] := fun hlive => absurd hlive (by simp [h0])
      exact (hpres2 (hpres1 hinv0)) hlive2
    · simp only [List.length_nil] at hlen1
      omega

/-! ## Concrete example inputs used by the witnesses -/

/-- Example configuration: `remote = 0` (all events local), `minimum = 1`,
`stop = 10`, `number = 2`, `events = 1`, unit `TIMEFACTOR`. -/
def exCfg : Config :=
  { remote := 0, minimum := 1, stop := 10, number := 2, events := 1, timefactor := 1 }

/-- Example destination distribution over `[0, 2)`. -/
def exNd : NodeDist exCfg.number :=
  { draw := fun _ => 1, draw_lt := fun _ => by norm_num [exCfg] }

/-- Example exponential-delay interpretation: always 3 timebase units. -/
def exDelay : ℚ → ℕ := fun _ => 3

/-- Example raw RNG stream: all draws are 0. -/
def exS : ℕ → ℚ := fun _ => 0

/-- Example initial LP state (fresh component). -/
def exSt : LPState :=
  { sendCount := 0, recvCount := 0, delays := [], okToEnd := false }

/-- Outcome of `SendEvent exCfg 0 exNd exDelay exS 1 false false 0 0 exSt`. -/
def exOut : SendOutcome :=
  { dest := 0, localDest := true, delayDrawn := 3, delayTotal := 4, arrival := 4,
    linkDelay := 4, event := { sendTime := 0 }, nextIdx := 2,
    state := { sendCount := 1, recvCount := 0, delays := [4], okToEnd := false },
    liveAfter := false }

/-- Outcome of the `SendEvent` call made inside the witness `handleEvent`
call (after the receive has been counted). -/
def exOut2 : SendOutcome :=
  { dest := 0, localDest := true, delayDrawn := 3, delayTotal := 4, arrival := 4,
    linkDelay := 4, event := { sendTime := 0 }, nextIdx := 2,
    state := { sendCount := 1, recvCount := 1, delays := [4], okToEnd := false },
    liveAfter := false }

/-- Outcome of `handleEvent exCfg 0 exNd exDelay exS 1 false 0 0 ⟨7⟩ exSt`. -/
def exHr : HandleOutcome :=
  { sendTime := 7, emitted := [exOut2],
    state := { sendCount := 1, recvCount := 1, delays := [4], okToEnd := false },
    nextIdx := 2, liveAfter := false }

/-- Outcome of the `SendEvent(true)` call made inside the witness `setup`
call (the shared flag starts clear and the event is live, so it is set). -/
def exOut3 : SendOutcome :=
  { dest := 0, localDest := true, delayDrawn := 3, delayTotal := 4, arrival := 4,
    linkDelay := 4, event := { sendTime := 0 }, nextIdx := 2,
    state := { sendCount := 1, recvCount := 0, delays := [4], okToEnd := false },
    liveAfter := true }

/-- Evaluation of the witness `SendEvent` call. -/
theorem exOut_eq : SendEvent exCfg 0 exNd exDelay exS 1 false false 0 0 exSt = some exOut := by
  simp only [SendEvent, sendTail, exCfg, exNd, exDelay, exS, exSt, exOut]
  norm_num

/-- Evaluation of the witness `handleEvent` call. -/
theorem exHr_eq :
    handleEvent exCfg 0 exNd exDelay exS 1 false 0 0 { sendTime := 7 } exSt = some exHr := by
  simp only [handleEvent, SendEvent, sendTail, exCfg, exNd, exDelay, exS, exSt, exHr, exOut2]
  norm_num

/-- Evaluation of the witness `setup` call (shared `m_initLive` clear at
entry). -/
theorem exSetup_eq :
    setup exCfg 0 exNd exDelay exS 1 5 false 0 0 exSt
      = some (exOut3.state, true, 2, [exOut3]) := by
  simp only [setup, setupLoop, setupExtras, SendEvent, sendTail, exCfg, exNd, exDelay, exS,
    exSt, exOut3]
  norm_num

/-- Witness for C2 at the concrete example inputs. -/
theorem sendEvent_timing_witness :
    exOut.delayTotal = exOut.delayDrawn + exCfg.minimum ∧
    exOut.arrival = 0 + exOut.delayTotal ∧
    (exOut.dest ≠ 0 → exOut.linkDelay = exOut.delayDrawn) ∧
    (exOut.dest = 0 → exOut.linkDelay = exOut.delayTotal) ∧
    exOut.event.sendTime = 0 :=
  sendEvent_timing exCfg 0 exNd exDelay exS 1 false false 0 0 exSt exOut exOut_eq

/-- Witness for C3 at the concrete example inputs (the coin is not below
`remote = 0`, so the self branch is taken and no destination draw is
made). -/
theorem sendEvent_draw_order_witness :
    (exCfg.remote ≤ exS 0 →
       exOut.dest = 0 ∧ exOut.localDest = true ∧
       exOut.delayDrawn = exDelay (exS 1) ∧ exOut.nextIdx = 0 + 2) ∧
    (exS 0 < exCfg.remote →
       ∃ j, 0 + 1 ≤ j ∧
         (∀ m, 0 + 1 ≤ m → m < j → exNd.draw (exS m) = 0) ∧
         exNd.draw (exS j) ≠ 0 ∧
         exOut.dest = exNd.draw (exS j) ∧ exOut.dest < exCfg.number ∧ exOut.dest ≠ 0 ∧
         exOut.localDest = false ∧
         exOut.delayDrawn = exDelay (exS (j + 1)) ∧ exOut.nextIdx = j + 2) :=
  sendEvent_draw_order exCfg 0 exNd exDelay exS 1 false false 0 0 exSt exOut exOut_eq

/-- Witness for C4 at the concrete example inputs. -/
theorem stats_stop_gating_witness :
    (exOut.arrival < exCfg.stop →
       exOut.state.sendCount = exSt.sendCount + 1 ∧
       exOut.state.delays = exSt.delays ++ [(exOut.delayTotal : ℚ) * exCfg.timefactor]) ∧
    (exCfg.stop ≤ exOut.arrival →
       exOut.state.sendCount = exSt.sendCount ∧ exOut.state.delays = exSt.delays) ∧
    (0 < exCfg.stop → exHr.state.recvCount = exSt.recvCount + 1) ∧
    (exCfg.stop ≤ 0 → exHr.state.recvCount = exSt.recvCount) :=
  stats_stop_gating exCfg exCfg 0 0 exNd exNd exDelay exDelay exS exS 1 1 false false false
    0 0 0 0 exSt exSt { sendTime := 7 } exOut exHr exOut_eq exHr_eq

/-- Witness for C5 at the concrete example inputs (`now = 0 < stop`). -/
theorem handleEvent_spec_witness :
    exHr.sendTime = PholdEvent.sendTime { sendTime := 7 } ∧
    (0 < exCfg.stop → exHr.emitted.length = 1 ∧ exHr.state.okToEnd = exSt.okToEnd) ∧
    (exCfg.stop ≤ 0 → exHr.emitted = [] ∧ exHr.state.okToEnd = true) ∧
    (exSt.okToEnd = false → (exHr.state.okToEnd = true ↔ exCfg.stop ≤ 0)) :=
  handleEvent_spec exCfg 0 exNd exDelay exS 1 false 0 0 { sendTime := 7 } exSt exHr exHr_eq

/-- Witness for C6 (amended) at the concrete example inputs: the shared
flag is clear at entry, the single initial event is live, and no extra
draws are needed. -/
theorem setup_live_witness :
    true = true ∧
    (false = false → ∃ e ∈ [exOut3], e.arrival < exCfg.stop) ∧
    exCfg.events ≤ [exOut3].length :=
  setup_live exCfg 0 exNd exDelay exS 1 5 false 0 0 exSt exOut3.state true 2 [exOut3]
    exSetup_eq

/-! ### The C6 counterexample: the shared `m_initLive` defeats the per-LP
guarantee -/

/-- Configuration for the C6 counterexample: as `exCfg` but with
`stop = 1`, so every draw of the LP under consideration lands at
`arrival = 4 ≥ stop` (no live event of its own is possible). -/
def exCfgDead : Config :=
  { remote := 0, minimum := 1, stop := 1, number := 2, events := 1, timefactor := 1 }

/-- Destination distribution over `[0, 2)` for the counterexample. -/
def exNdDead : NodeDist exCfgDead.number :=
  { draw := fun _ => 0, draw_lt := fun _ => by norm_num [exCfgDead] }

/-- The single — dead — event LP 1's `setup()` emits in the
counterexample run. -/
def exOutDead : SendOutcome :=
  { dest := 1, localDest := true, delayDrawn := 3, delayTotal := 4, arrival := 4,
    linkDelay := 4, event := { sendTime := 0 }, nextIdx := 2,
    state := exSt, liveAfter := true }

/--
C6 (counterexample): the claim as stated — when `setup()` returns, at
least one event emitted by the LP has a scheduled arrival time strictly
less than `stop`, setup retrying until one exists — is false of the code,
because `m_initLive` is a class STATIC (`Phold.h`, `Phold.cc`) shared by
every LP of the process, not a per-LP flag.  Concrete run (debug build,
`N = 2`, one process): LP 0's `setup()` records a live event, setting the
shared flag; LP 1's `setup()` then runs with the flag already set
(`live = true` below), draws its single initial event at
`arrival = 4 ≥ stop = 1`, finds `!m_initLive` false, skips the retry loop
entirely and returns — the full list of events LP 1 emitted is the
singleton `[exOutDead]`, and that event is not live.
-/
theorem setup_stale_live_flag :
    setup exCfgDead 1 exNdDead exDelay exS 1 5 true 0 0 exSt
        = some (exSt, true, 2, [exOutDead]) ∧
    ¬ exOutDead.arrival < exCfgDead.stop := by
  constructor
  · simp only [setup, setupLoop, setupExtras, SendEvent, sendTail, exCfgDead, exNdDead,
      exDelay, exS, exSt, exOutDead]
    norm_num
  · simp [exOutDead, exCfgDead]

/-! ## The out-of-band collectives (`Phold::init`, `Phold::complete`)

`complete()` runs in integer phases outside virtual time.  With
`maxDepth = depth(number - 1)` and effective phase `ephase = maxDepth -
phase`, the LP whose tree depth equals `ephase` reads one `CompleteEvent`
from each valid child (`getChildCounts`), adds its own counters, and sends
the partial sums to its parent (`sendToParent`); children sit one level
deeper, so their reports were produced in the previous phase.  The value
an LP contributes is therefore the fixed point of the per-phase body
`completeAt`, which the fuelled recursion `completeGo` computes
(`completeReport_unfold` below shows it satisfies exactly the per-LP
equation). -/

/-- Embeds `Phold::getChildCounts(child)`: if `child < m_number` the pair
carried by the child's `CompleteEvent` is returned, otherwise the link is
not touched and the overflow child contributes `{0, 0}`. -/
def getChildCounts (number : ℕ) (report : ℕ → ℕ × ℕ) (child : ℕ) : ℕ × ℕ :=
  if child < number then report child else (0, 0)

/-- Embeds the `ephase == depth(getId())` body of `Phold::complete`:
read both children via `getChildCounts` on `BinaryTree::children(getId())`
and accumulate `sendCount`/`recvCount` on top of the LP's own counters.
The result is what `sendToParent` transmits (or, at the root, the grand
totals that are reported). -/
def completeAt (number id : ℕ) (own : ℕ × ℕ) (report : ℕ → ℕ × ℕ) : ℕ × ℕ :=
  let cs := BinaryTree.children id
  let left := getChildCounts number report cs.1
  let right := getChildCounts number report cs.2
  (own.1 + left.1 + right.1, own.2 + left.2 + right.2)

/-- The per-LP value of the `complete()` reduction, computed by fuelled
recursion down the tree (children have strictly larger indices, so `number`
units of fuel always suffice from any live LP). -/
def completeGo (number : ℕ) (own : ℕ → ℕ × ℕ) : ℕ → ℕ → ℕ × ℕ
  | 0, _ => (0, 0)
  | fuel + 1, id => completeAt number id (own id) (fun c => completeGo number own fuel c)

/-- The pair `(sendCount, recvCount)` LP `id` forwards to its parent during
`complete()` (at the root, the reported grand totals). -/
def completeReport (number : ℕ) (own : ℕ → ℕ × ℕ) (id : ℕ) : ℕ × ℕ :=
  completeGo number own number id

/-- Decides whether index `j` lies in the subtree rooted at index `id` of
the implicit binary tree (`j` reaches `id` by iterating
`BinaryTree::parent`). -/
def inSubtree (id j : ℕ) : Bool :=
  if j = id then true
  else if j < id then false
  else inSubtree id ((j - 1) / 2)
termination_by j
decreasing_by
  simp_wf
  omega

theorem inSubtree_unfold (id j : ℕ) :
    inSubtree id j =
      if j = id then true
      else if j < id then false
      else inSubtree id ((j - 1) / 2) := by
  rw [inSubtree]

theorem inSubtree_refl (id : ℕ) : inSubtree id id = true := by
  rw [inSubtree_unfold]
  simp

theorem inSubtree_le (id : ℕ) : ∀ j, inSubtree id j = true → id ≤ j := by
  intro j
  induction j using Nat.strong_induction_on with
  | _ j ih =>
    intro h
    rw [inSubtree_unfold] at h
    by_cases h1 : j = id
    · omega
    · rw [if_neg h1] at h
      by_cases h2 : j < id
      · rw [if_pos h2] at h; exact absurd h (by simp)
      · rw [if_neg h2] at h
        omega

theorem inSubtree_children (id : ℕ) :
    ∀ j, inSubtree id j = true ↔
      (j = id ∨ inSubtree (2 * id + 1) j = true ∨ inSubtree (2 * id + 2) j = true) := by
  intro j
  induction j using Nat.strong_induction_on with
  | _ j ih =>
    constructor
    · intro h
      by_cases hj : j = id
      · exact Or.inl hj
      · rw [inSubtree_unfold, if_neg hj] at h
        by_cases hlt : j < id
        · rw [if_pos hlt] at h; exact absurd h (by simp)
        · rw [if_neg hlt] at h
          have hgt : id < j := by omega
          by_cases hp : (j - 1) / 2 = id
          · have : j = 2 * id + 1 ∨ j = 2 * id + 2 := by omega
            rcases this with hc | hc
            · exact Or.inr (Or.inl (hc ▸ inSubtree_refl _))
            · exact Or.inr (Or.inr (hc ▸ inSubtree_refl _))
          · have hplt : (j - 1) / 2 < j := by omega
            rcases (ih _ hplt).mp h with hpid | hsub | hsub
            · exact absurd hpid hp
            · refine Or.inr (Or.inl ?_)
              have hle : 2 * id + 1 ≤ (j - 1) / 2 := inSubtree_le _ _ hsub
              rw [inSubtree_unfold, if_neg (by omega), if_neg (by omega)]
              exact hsub
            · refine Or.inr (Or.inr ?_)
              have hle : 2 * id + 2 ≤ (j - 1) / 2 := inSubtree_le _ _ hsub
              rw [inSubtree_unfold, if_neg (by omega), if_neg (by omega)]
              exact hsub
    · rintro (hj | hsub | hsub)
      · exact hj ▸ inSubtree_refl id
      · have h1 : 2 * id + 1 ≤ j := inSubtree_le _ _ hsub
        by_cases hj : j = 2 * id + 1
        · rw [inSubtree_unfold, if_neg (by omega), if_neg (by omega)]
          have hpar : (j - 1) / 2 = id := by omega
          rw [hpar]
          exact inSubtree_refl id
        · rw [inSubtree_unfold, if_neg hj, if_neg (by omega)] at hsub
          have hplt : (j - 1) / 2 < j := by omega
          have hid : inSubtree id ((j - 1) / 2) = true :=
            (ih _ hplt).mpr (Or.inr (Or.inl hsub))
          rw [inSubtree_unfold, if_neg (by omega), if_neg (by omega)]
          exact hid
      · have h1 : 2 * id + 2 ≤ j := inSubtree_le _ _ hsub
        by_cases hj : j = 2 * id + 2
        · rw [inSubtree_unfold, if_neg (by omega), if_neg (by omega)]
          have hpar : (j - 1) / 2 = id := by omega
          rw [hpar]
          exact inSubtree_refl id
        · rw [inSubtree_unfold, if_neg hj, if_neg (by omega)] at hsub
          have hplt : (j - 1) / 2 < j := by omega
          have hid : inSubtree id ((j - 1) / 2) = true :=
            (ih _ hplt).mpr (Or.inr (Or.inr hsub))
          rw [inSubtree_unfold, if_neg (by omega), if_neg (by omega)]
          exact hid

theorem inSubtree_disjoint (id : ℕ) :
    ∀ j, ¬(inSubtree (2 * id + 1) j = true ∧ inSubtree (2 * id + 2) j = true) := by
  intro j
  induction j using Nat.strong_induction_on with
  | _ j ih =>
    rintro ⟨h1, h2⟩
    have l1 : 2 * id + 1 ≤ j := inSubtree_le _ _ h1
    have l2 : 2 * id + 2 ≤ j := inSubtree_le _ _ h2
    by_cases hj : j = 2 * id + 2
    · rw [inSubtree_unfold, if_neg (by omega), if_neg (by omega)] at h1
      have hpar : (j - 1) / 2 = id := by omega
      rw [hpar] at h1
      have := inSubtree_le _ _ h1
      omega
    · rw [inSubtree_unfold, if_neg (by omega), if_neg (by omega)] at h1
      rw [inSubtree_unfold, if_neg hj, if_neg (by omega)] at h2
      exact ih _ (by omega) ⟨h1, h2⟩

theorem inSubtree_root : ∀ j, inSubtree 0 j = true := by
  intro j
  induction j using Nat.strong_induction_on with
  | _ j ih =>
    by_cases hj : j = 0
    · exact hj ▸ inSubtree_refl 0
    · rw [inSubtree_unfold, if_neg hj, if_neg (by omega)]
      exact ih _ (by omega)

theorem filter_inSubtree_empty (number c : ℕ) (hc : number ≤ c) :
    (Finset.range number).filter (fun j => inSubtree c j) = ∅ := by
  apply Finset.filter_false_of_mem
  intro j hj
  intro h
  have := inSubtree_le c j h
  have := Finset.mem_range.mp hj
  omega

theorem filter_inSubtree_insert (number id : ℕ) (hid : id < number) :
    (Finset.range number).filter (fun j => inSubtree id j) =
      insert id (((Finset.range number).filter (fun j => inSubtree (2 * id + 1) j)) ∪
        ((Finset.range number).filter (fun j => inSubtree (2 * id + 2) j))) := by
  ext j
  simp only [Finset.mem_filter, Finset.mem_insert, Finset.mem_union, Finset.mem_range]
  constructor
  · rintro ⟨hj, hsub⟩
    rcases (inSubtree_children id j).mp hsub with hj0 | hs | hs
    · exact Or.inl hj0
    · exact Or.inr (Or.inl ⟨hj, hs⟩)
    · exact Or.inr (Or.inr ⟨hj, hs⟩)
  · rintro (hj0 | ⟨hj, hs⟩ | ⟨hj, hs⟩)
    · exact ⟨hj0 ▸ hid, hj0 ▸ inSubtree_refl id⟩
    · exact ⟨hj, (inSubtree_children id j).mpr (Or.inr (Or.inl hs))⟩
    · exact ⟨hj, (inSubtree_children id j).mpr (Or.inr (Or.inr hs))⟩

theorem completeGo_eq (number : ℕ) (own : ℕ → ℕ × ℕ) :
    ∀ fuel id, id < number → number - id ≤ fuel →
      completeGo number own fuel id =
        (∑ j in (Finset.range number).filter (fun j => inSubtree id j), (own j).1,
         ∑ j in (Finset.range number).filter (fun j => inSubtree id j), (own j).2) := by
  intro fuel
  induction fuel with
  | zero => intro id hid hf; omega
  | succ n ih =>
    intro id hid hf
    have hchild : ∀ c, id < c → c ≤ 2 * id + 2 →
        getChildCounts number (fun k => completeGo number own n k) c =
          (∑ j in (Finset.range number).filter (fun j => inSubtree c j), (own j).1,
           ∑ j in (Finset.range number).filter (fun j => inSubtree c j), (own j).2) := by
      intro c hcgt _
      unfold getChildCounts
      by_cases hc : c < number
      · rw [if_pos hc]
        exact ih c hc (by omega)
      · rw [if_neg hc]
        rw [filter_inSubtree_empty number c (by omega)]
        simp
    have hleft := hchild (2 * id + 1) (by omega) (by omega)
    have hright := hchild (2 * id + 2) (by omega) (by omega)
    have hnotmem : id ∉
        ((Finset.range number).filter (fun j => inSubtree (2 * id + 1) j)) ∪
          ((Finset.range number).filter (fun j => inSubtree (2 * id + 2) j)) := by
      simp only [Finset.mem_union, Finset.mem_filter]
      rintro (⟨_, hs⟩ | ⟨_, hs⟩) <;>
        · have := inSubtree_le _ _ hs
          omega
    have hdisj : Disjoint
        ((Finset.range number).filter (fun j => inSubtree (2 * id + 1) j))
        ((Finset.range number).filter (fun j => inSubtree (2 * id + 2) j)) := by
      rw [Finset.disjoint_left]
      intro j hj1 hj2
      simp only [Finset.mem_filter] at hj1 hj2
      exact inSubtree_disjoint id j ⟨hj1.2, hj2.2⟩
    simp only [completeGo, completeAt, BinaryTree.children]
    rw [hleft, hright, filter_inSubtree_insert number id hid]
    rw [Finset.sum_insert hnotmem, Finset.sum_insert hnotmem]
    rw [Finset.sum_union hdisj, Finset.sum_union hdisj]
    simp only [Prod.mk.injEq]
    refine ⟨?_, ?_⟩ <;>
      · dsimp only
        ring

/-- Sanity check that `completeReport` is the fixed point of the per-LP
phase body: for every live LP it satisfies exactly the equation the
`complete()` code computes at `ephase == depth(id)`. -/
theorem completeReport_unfold (number : ℕ) (own : ℕ → ℕ × ℕ) (id : ℕ) (hid : id < number) :
    completeReport number own id = completeAt number id (own id) (completeReport number own) := by
  have h1 := completeGo_eq number own number id hid (by omega)
  have h2 := completeGo_eq number own (number + 1) id hid (by omega)
  show completeGo number own number id = completeGo number own (number + 1) id
  rw [h1, h2]

/-! ## Claim C1: the complete() reduction computes the grand totals -/

/--
C1: for every run over `N ≥ 2` LPs, when the `complete()` reduction
finishes, the grand totals reported at the root LP (id 0) equal the sums
over all `N` LPs of the per-LP `send_count` and `recv_count`: each LP, at
its effective phase, adds its own two counters to the pairs received from
each valid child (index `< N`, overflow children contributing `{0, 0}`)
and forwards the partial sums to its parent, so every LP's counters
contribute exactly once.
-/
theorem complete_grand_totals (number : ℕ) (hN : 2 ≤ number) (own : ℕ → ℕ × ℕ) :
    completeReport number own 0 =
      (∑ i in Finset.range number, (own i).1, ∑ i in Finset.range number, (own i).2) := by
  have h := completeGo_eq number own number 0 (by omega) (by omega)
  have hfilter : (Finset.range number).filter (fun j => inSubtree 0 j) = Finset.range number :=
    Finset.filter_true_of_mem (fun j _ => inSubtree_root j)
  unfold completeReport
  rw [h, hfilter]

/-- Witness for C1 at `N = 3` with counters `own i = (i + 1, 2 * i)`:
the root reports `(1 + 2 + 3, 0 + 2 + 4) = (6, 6)`. -/
theorem complete_grand_totals_witness :
    completeReport 3 (fun i => (i + 1, 2 * i)) 0 =
      (∑ i in Finset.range 3, ((fun i => (i + 1, 2 * i)) i).1,
       ∑ i in Finset.range 3, ((fun i => (i + 1, 2 * i)) i).2) :=
  complete_grand_totals 3 (by decide) (fun i => (i + 1, 2 * i))

/-! ## Claim C10: link accesses during the collectives stay in bounds -/

/-- Indices of `m_links` accessed by `Phold::sendToChild(child)`: the
`InitEvent` is transmitted on `m_links[child]` only when
`child < m_number`; overflow children are silently skipped. -/
def sendToChildLinks (number child : ℕ) : List ℕ :=
  if child < number then [child] else []

/-- Indices of `m_links` accessed by `Phold::getChildCounts(child)`:
`m_links[child]` is read only when `child < m_number`. -/
def getChildCountsLinks (number child : ℕ) : List ℕ :=
  if child < number then [child] else []

/-- Indices of `m_links` scanned by `Phold::checkForEvents`:
the loop `for (id = 0; id < m_number; ++id)`. -/
def checkForEventsLinks (number : ℕ) : List ℕ := List.range number

/--
C10: during the init broadcast and the complete reduction every link
access is within bounds for every `N ≥ 2`: `sendToChild` transmits only
when the child index is strictly less than `N` and silently skips larger
indices, `getChildCounts` returns `(0, 0)` without touching any link when
the child index is at least `N`, `checkForEvents` scans only link indices
`0 .. N - 1`, and the parent index a non-root LP reads from
(`init`) or sends to (`complete`) is below `N` as well — so the
collectives never index the per-LP link vector at or beyond `N`.
-/
theorem collective_link_bounds (number child id : ℕ) (report : ℕ → ℕ × ℕ)
    (_hN : 2 ≤ number) :
    (∀ i ∈ sendToChildLinks number child, i < number) ∧
    (number ≤ child → sendToChildLinks number child = []) ∧
    (∀ i ∈ getChildCountsLinks number child, i < number) ∧
    (number ≤ child →
       getChildCounts number report child = (0, 0) ∧
       getChildCountsLinks number child = []) ∧
    (∀ i ∈ checkForEventsLinks number, i < number) ∧
    (0 < id → id < number → BinaryTree.parent id < number) := by
  refine ⟨?_, ?_, ?_, ?_, ?_, ?_⟩
  · intro i hi
    unfold sendToChildLinks at hi
    by_cases hc : child < number
    · rw [if_pos hc] at hi
      simp only [List.mem_singleton] at hi
      omega
    · rw [if_neg hc] at hi
      simp at hi
  · intro hge
    unfold sendToChildLinks
    rw [if_neg (by omega)]
  · intro i hi
    unfold getChildCountsLinks at hi
    by_cases hc : child < number
    · rw [if_pos hc] at hi
      simp only [List.mem_singleton] at hi
      omega
    · rw [if_neg hc] at hi
      simp at hi
  · intro hge
    constructor
    · unfold getChildCounts
      rw [if_neg (by omega)]
    · unfold getChildCountsLinks
      rw [if_neg (by omega)]
  · intro i hi
    exact List.mem_range.mp hi
  · intro h0 hlt
    unfold BinaryTree.parent
    omega

/-- Witness for C10 at `N = 3`, overflow child 5, LP 2. -/
theorem collective_link_bounds_witness :
    (∀ i ∈ sendToChildLinks 3 5, i < 3) ∧
    (3 ≤ 5 → sendToChildLinks 3 5 = []) ∧
    (∀ i ∈ getChildCountsLinks 3 5, i < 3) ∧
    (3 ≤ 5 →
       getChildCounts 3 (fun _ => (1, 1)) 5 = (0, 0) ∧
       getChildCountsLinks 3 5 = []) ∧
    (∀ i ∈ checkForEventsLinks 3, i < 3) ∧
    (0 < 2 → 2 < 3 → BinaryTree.parent 2 < 3) :=
  collective_link_bounds 3 5 2 (fun _ => (1, 1)) (by decide)

/-! ## Claim C7: configuration validation -/

/-- Raw configuration values as received by the front end, before
validation. -/
structure RawParams where
  number : ℕ
  events : ℕ
  remote : ℚ
  minimum : ℚ
  average : ℚ
  stop : ℚ
  deriving Repr, DecidableEq

/-- Modelled from the spec: the configuration validation (spec §4.9,
"On construction, reject: `number < 2`, `minimum ≤ 0`, `average ≤ 0`,
`stop ≤ 0`, `events < 1`, `remote ∉ [0, 1]`").  The checks are performed
by the repository's front end (`tests/phold.py`, which is not under
`src/`) before any component is constructed and hence before any event is
scheduled; the `Phold` constructor in `src/Phold.cc` reads the
already-validated values.  `true` means the configuration is accepted. -/
def validateConfig (p : RawParams) : Bool :=
  decide (2 ≤ p.number) && decide (0 < p.minimum) && decide (0 < p.average) &&
    decide (0 < p.stop) && decide (1 ≤ p.events) &&
    decide (0 ≤ p.remote) && decide (p.remote ≤ 1)

/--
C7: every configuration record with `number < 2`, or `minimum ≤ 0`, or
`average ≤ 0`, or `stop ≤ 0`, or `events < 1`, or `remote` outside
`[0, 1]` is rejected by the validation (which runs before any event is
scheduled); every configuration satisfying all these bounds is accepted.
-/
theorem validateConfig_spec (p : RawParams) :
    (validateConfig p = false ↔
       (p.number < 2 ∨ p.minimum ≤ 0 ∨ p.average ≤ 0 ∨ p.stop ≤ 0 ∨ p.events < 1 ∨
         p.remote < 0 ∨ 1 < p.remote)) ∧
    (validateConfig p = true ↔
       (2 ≤ p.number ∧ 0 < p.minimum ∧ 0 < p.average ∧ 0 < p.stop ∧ 1 ≤ p.events ∧
         0 ≤ p.remote ∧ p.remote ≤ 1)) := by
  have htrue : validateConfig p = true ↔
      (2 ≤ p.number ∧ 0 < p.minimum ∧ 0 < p.average ∧ 0 < p.stop ∧ 1 ≤ p.events ∧
        0 ≤ p.remote ∧ p.remote ≤ 1) := by
    simp [validateConfig, and_assoc]
  refine ⟨?_, htrue⟩
  rw [← Bool.not_eq_true, htrue]
  push_neg
  constructor
  · intro h
    by_cases h1 : 2 ≤ p.number
    · by_cases h2 : (0 : ℚ) < p.minimum
      · by_cases h3 : (0 : ℚ) < p.average
        · by_cases h4 : (0 : ℚ) < p.stop
          · by_cases h5 : 1 ≤ p.events
            · by_cases h6 : (0 : ℚ) ≤ p.remote
              · have := h h1 h2 h3 h4 h5 h6
                exact Or.inr (Or.inr (Or.inr (Or.inr (Or.inr (Or.inr (by linarith))))))
              · exact Or.inr (Or.inr (Or.inr (Or.inr (Or.inr (Or.inl (by linarith))))))
            · exact Or.inr (Or.inr (Or.inr (Or.inr (Or.inl (by omega)))))
          · exact Or.inr (Or.inr (Or.inr (Or.inl (by linarith))))
        · exact Or.inr (Or.inr (Or.inl (by linarith)))
      · exact Or.inr (Or.inl (by linarith))
    · exact Or.inl (by omega)
  · rintro (h | h | h | h | h | h | h) <;>
      intros <;> first
        | omega
        | linarith

end PholdSpec
